import Mathlib

/-!
# Verification of `optuna_lib.py`

A shallow embedding of the reporting logic of `OptunaStudy` (file
`optuna_lib.py`): the methods `plot_trial_results` and `display_top_trials`.

Modelling decisions:
* Objective values are modelled as `Option Rat` (optuna's `trial.value` is
  `None` for failed/incomplete trials; only order comparisons on values
  matter here, so rationals stand in for floats).
* Python dicts (`trial.params`, the `"context"` sub-mapping, and the
  `top_trials_data` dict) are modelled as association lists in insertion
  order.  Python dict assignment `d[k] = v` overwrites the value of an
  existing key *in place*, keeping its original position; `dictSet` below
  mirrors that.
* Python's `sorted(trials, key=lambda x: x.value, reverse=True)` is a
  stable descending sort.  CPython raises `TypeError` as soon as a `None`
  key is compared with anything; with at least two elements every element
  participates in at least one comparison, so the call raises exactly when
  the list has length ≥ 2 and some trial's value is `None`.  `pySortByValueDesc`
  mirrors that, and otherwise performs a stable descending sort
  (Mathlib's `insertionSort`, which is stable, with the relation
  `keyOf b ≤ keyOf a`).
* Python set iteration order over `all_params` is unspecified; it is
  determinised here as first-appearance order (`dedupKeys`).
* Raised exceptions are modelled by `Except Err`; `print` happens only
  after the whole dict is assembled, so an error means nothing is written
  to standard output (the `.ok` payload is exactly the printed table).
-/

namespace OptunaLib

/-- A cell of the displayed table: a numeric value, a string (contexts may hold
strings; the `"N/A"` marker is the string cell `"N/A"`), or Python `None`
(the objective-value cell of a trial without a value). -/
inductive Cell : Type where
  | num (q : Rat)
  | str (s : String)
  | null
deriving DecidableEq, Repr

/-- The literal marker used for a parameter missing from a trial:
`trial.params.get` with default `"N/A"`. -/
def NA : Cell := Cell.str "N/A"

/-- One optuna trial, restricted to the attributes the code consumes:
`trial.value` (nullable scalar), `trial.params` (dict of sampled
parameters), and `trial.user_attrs["context"]` (`none` when the
`"context"` key is absent from the user attributes). -/
structure Trial : Type where
  value : Option Rat
  params : List (String × Cell)
  context : Option (List (String × Cell))
deriving DecidableEq, Repr

/-- Errors the reporting methods can raise: `typeError` (comparing `None`
during the sort, or plotting a `None` value), `missingContext`
(`user_attrs["context"]` raising `KeyError`), and `missingField f`
(`c[f]` raising `KeyError` on a context sub-mapping). -/
inductive Err : Type where
  | typeError
  | missingContext
  | missingField (f : String)
deriving DecidableEq, Repr

/-- The spec's "missing-context error" class (§7): a selected trial's
auxiliary attributes lack a `"context"` entry, or lack a requested field
within it. -/
def Err.isMissingContextErr : Err → Bool
  | .typeError => false
  | .missingContext => true
  | .missingField _ => true

/-- The displayed table: columns in order, each a name with its cells.
`pd.DataFrame(top_trials_data)` keeps the dict's key order as column
order, and `print` renders exactly this. -/
abbrev Table := List (String × List Cell)

/-- Python dict lookup `d.get(k)` on an association list. -/
def lookupKey (k : String) : List (String × α) → Option α
  | [] => none
  | (k', v) :: rest => if k' = k then some v else lookupKey k rest

/-- Python dict assignment `d[k] = v`: overwrite in place if the key
exists (keeping its position), else append at the end. -/
def dictSet (d : List (String × α)) (k : String) (v : α) : List (String × α) :=
  if d.any (fun p => p.1 = k) then
    d.map (fun p => if p.1 = k then (k, v) else p)
  else
    d ++ [(k, v)]

/-- First-appearance deduplication of a key list: the determinisation of
Python set iteration order used for `all_params`. -/
def dedupKeys : List String → List String
  | [] => []
  | k :: ks => k :: (dedupKeys ks).filter (fun k' => k' ≠ k)

/-- The sort key `lambda x: x.value`, on trials whose value is present
(the `getD` default is never reached when the sort succeeds on a list of
length ≥ 2, and is irrelevant to the result on shorter lists). -/
def keyOf (t : Trial) : Rat := t.value.getD 0

/-- The descending stable order used by `sorted(..., key=lambda x: x.value,
reverse=True)`: `a` may precede `b` when `keyOf b ≤ keyOf a`; on ties the
earlier element stays first (stability). -/
def sortRel (a b : Trial) : Prop := keyOf b ≤ keyOf a

instance : DecidableRel sortRel :=
  fun a b => inferInstanceAs (Decidable (keyOf b ≤ keyOf a))

instance : IsTotal Trial sortRel := ⟨fun a b => le_total (keyOf b) (keyOf a)⟩

instance : IsTrans Trial sortRel := ⟨fun _ _ _ hab hbc => le_trans hbc hab⟩

/-- The stable descending sort itself (insertion sort is stable). -/
def sortDesc (l : List Trial) : List Trial :=
  l.insertionSort sortRel

/-- `sorted(self.study.trials, key=lambda x: x.value, reverse=True)`:
raises `TypeError` when a `None` value gets compared (which happens
exactly when the list has ≥ 2 elements and some value is `None`),
otherwise returns the stable descending sort. -/
def pySortByValueDesc (l : List Trial) : Except Err (List Trial) :=
  if 2 ≤ l.length ∧ l.any (fun t => t.value.isNone) then
    Except.error Err.typeError
  else
    Except.ok (sortDesc l)

/-- The selection `sorted_trials[:top_N]` as a pure function (coincides
with the code's selection whenever the sort does not raise). -/
def selectedOf (trials : List Trial) (topN : Nat) : List Trial :=
  (sortDesc trials).take topN

/-- `trial.user_attrs["context"]`: raises `KeyError` when absent. -/
def getContext (t : Trial) : Except Err (List (String × Cell)) :=
  match t.context with
  | some c => Except.ok c
  | none => Except.error Err.missingContext

/-- `c[field]` on a context sub-mapping: raises `KeyError` when absent. -/
def ctxGet (c : List (String × Cell)) (f : String) : Except Err Cell :=
  match lookupKey f c with
  | some v => Except.ok v
  | none => Except.error (Err.missingField f)

/-- A trial's objective-value cell (`None` renders as a null cell). -/
def cellOfValue : Option Rat → Cell
  | some q => Cell.num q
  | none => Cell.null

/-- The objective-value column: `[trial.value for trial in sorted_trials[:top_N]]`. -/
def objColumn (sel : List Trial) : List Cell :=
  sel.map (fun t => cellOfValue t.value)

/-- `all_params`: the union of parameter names over the selected trials
(set iteration order determinised as first-appearance order). -/
def allParams (sel : List Trial) : List String :=
  dedupKeys (sel.flatMap (fun t => t.params.map Prod.fst))

/-- One parameter column:
for each selected trial the parameter value if present, else the `"N/A"` marker. -/
def paramColumn (sel : List Trial) (p : String) : List Cell :=
  sel.map (fun t => (lookupKey p t.params).getD NA)

/-- Assign, in order, one column per key of `ps` into the dict `d`
(the common shape of the two column-insertion loops). -/
def foldColumns (cols : String → List Cell) (ps : List String) (d : Table) : Table :=
  ps.foldl (fun d p => dictSet d p (cols p)) d

/-- The loop `for param in all_params: top_trials_data[param] = ...`. -/
def paramTable (sel : List Trial) (d : Table) : Table :=
  foldColumns (paramColumn sel) (allParams sel) d

/-- One context-field column: `[c[field] for c in contexts]`
(raises on the first context lacking the field). -/
def ctxColumn (contexts : List (List (String × Cell))) (f : String) :
    Except Err (List Cell) :=
  contexts.mapM (fun c => ctxGet c f)

/-- The loop `for field in context_fields: top_trials_data[field] = [c[field] for c in contexts]`,
inserting each column before computing the next. -/
def ctxTable (contexts : List (List (String × Cell))) :
    List String → Table → Except Err Table
  | [], d => Except.ok d
  | f :: fs, d => do
    let col ← ctxColumn contexts f
    ctxTable contexts fs (dictSet d f col)

/-- `display_top_trials(context_fields, top_N)`: sort all trials by value
descending, take the first `top_N`, extract each selected trial's
`"context"`, then assemble the dict: the objective column, one column per
parameter in the union, and one column per requested context field.
The `.ok` payload is the table printed to standard output; an error means
nothing is printed (the single `print` is the last statement). -/
def displayTopTrials (trials : List Trial) (context_fields : List String)
    (topN : Nat := 5) : Except Err Table := do
  let sorted_trials ← pySortByValueDesc trials
  let sel := sorted_trials.take topN
  let contexts ← sel.mapM getContext
  let d : Table := [("Objective Value", objColumn sel)]
  ctxTable contexts context_fields (paramTable sel d)

/-- Modelled from the spec: the external plotting backend (`plt.scatter`)
is not part of this repository; per §4.1/§7 it renders the points and the
call fails when a y-value is missing (a trial without a result value).
The `.ok` payload is the list of plotted points. -/
def scatter (xs : List Nat) (ys : List (Option Rat)) :
    Except Err (List (Nat × Rat)) :=
  (xs.zip ys).mapM (fun p =>
    match p.2 with
    | some v => Except.ok (p.1, v)
    | none => Except.error Err.typeError)

/-- `plot_trial_results()`: extract `trial.value` from every trial
unconditionally, then scatter them against `range(1, len+1)`
(1-indexed chronological trial numbers). -/
def plot_trial_results (trials : List Trial) : Except Err (List (Nat × Rat)) :=
  let objective_values := trials.map (fun t => t.value)
  scatter (List.range' 1 objective_values.length) objective_values


/-! ## Basic lemmas: `Except` bind, `mapM`, association lists -/

theorem exceptBind_ok (a : α) (g : α → Except Err β) :
    (Except.ok a : Except Err α) >>= g = g a := rfl

theorem exceptBind_error (e : Err) (g : α → Except Err β) :
    (Except.error e : Except Err α) >>= g = Except.error e := rfl

theorem mapM_eq_ok_map (f : α → Except Err β) (g : α → β) :
    ∀ l : List α, (∀ a ∈ l, f a = Except.ok (g a)) →
      l.mapM f = Except.ok (l.map g) := by
  intro l
  induction l with
  | nil => intro _; rfl
  | cons a l ih =>
    intro h
    rw [List.mapM_cons, h a (List.mem_cons_self a l),
      ih (fun b hb => h b (List.mem_cons_of_mem a hb))]
    rfl

theorem mapM_ok_forall (f : α → Except Err β) :
    ∀ (l : List α) (out : List β), l.mapM f = Except.ok out →
      ∀ a ∈ l, ∃ b, f a = Except.ok b := by
  intro l
  induction l with
  | nil => intro out _ a ha; cases ha
  | cons a l ih =>
    intro out h b hb
    rw [List.mapM_cons] at h
    cases hfa : f a with
    | error e => rw [hfa, exceptBind_error] at h; cases h
    | ok c =>
      rw [hfa, exceptBind_ok] at h
      cases hl : l.mapM f with
      | error e => rw [hl, exceptBind_error] at h; cases h
      | ok cs =>
        rcases List.mem_cons.mp hb with rfl | hb
        · exact ⟨c, hfa⟩
        · exact ih cs hl b hb

theorem mapM_ok_length (f : α → Except Err β) :
    ∀ (l : List α) (out : List β), l.mapM f = Except.ok out →
      out.length = l.length := by
  intro l
  induction l with
  | nil =>
    intro out h
    cases h; rfl
  | cons a l ih =>
    intro out h
    rw [List.mapM_cons] at h
    cases hfa : f a with
    | error e => rw [hfa, exceptBind_error] at h; cases h
    | ok c =>
      rw [hfa, exceptBind_ok] at h
      cases hl : l.mapM f with
      | error e => rw [hl, exceptBind_error] at h; cases h
      | ok cs =>
        rw [hl, exceptBind_ok] at h
        cases h
        simp [ih cs hl]

theorem mapM_error_mem (f : α → Except Err β) :
    ∀ (l : List α) (e : Err), l.mapM f = Except.error e →
      ∃ a ∈ l, f a = Except.error e := by
  intro l
  induction l with
  | nil => intro e h; cases h
  | cons a l ih =>
    intro e h
    rw [List.mapM_cons] at h
    cases hfa : f a with
    | error e₁ =>
      rw [hfa, exceptBind_error] at h
      cases h
      exact ⟨a, List.mem_cons_self a l, hfa⟩
    | ok c =>
      rw [hfa, exceptBind_ok] at h
      cases hl : l.mapM f with
      | error e₁ =>
        rw [hl, exceptBind_error] at h
        cases h
        rcases ih _ hl with ⟨b, hb, hfb⟩
        exact ⟨b, List.mem_cons_of_mem a hb, hfb⟩
      | ok cs => rw [hl, exceptBind_ok] at h; cases h

theorem mapM_ok_eq_map (f : α → Except Err β) (g : α → β) (l : List α)
    (out : List β) (h : l.mapM f = Except.ok out)
    (hg : ∀ a ∈ l, f a = Except.ok (g a)) : out = l.map g := by
  rw [mapM_eq_ok_map f g l hg] at h
  cases h; rfl

theorem lookupKey_eq_none (k : String) :
    ∀ d : List (String × α), k ∉ d.map Prod.fst → lookupKey k d = none := by
  intro d
  induction d with
  | nil => intro _; rfl
  | cons p d ih =>
    intro h
    obtain ⟨k₁, v₁⟩ := p
    simp only [List.map_cons, List.mem_cons, not_or] at h
    simp only [lookupKey]
    rw [if_neg (fun heq => h.1 heq.symm)]
    exact ih h.2

theorem lookupKey_isSome_of_mem (k : String) :
    ∀ d : List (String × α), k ∈ d.map Prod.fst → (lookupKey k d).isSome := by
  intro d
  induction d with
  | nil => intro h; cases h
  | cons p d ih =>
    intro h
    obtain ⟨k₁, v₁⟩ := p
    by_cases hk : k₁ = k
    · simp [lookupKey, hk]
    · simp only [List.map_cons, List.mem_cons] at h
      rcases h with rfl | h
      · exact absurd rfl hk
      · simpa [lookupKey, hk] using ih h


theorem any_key_iff (d : List (String × α)) (k : String) :
    (d.any (fun p => p.1 = k)) = true ↔ k ∈ d.map Prod.fst := by
  simp [List.any_eq_true, List.mem_map]

theorem lookupKey_replace_self (k : String) (v : α) :
    ∀ d : List (String × α), k ∈ d.map Prod.fst →
      lookupKey k (d.map (fun p => if p.1 = k then (k, v) else p)) = some v := by
  intro d
  induction d with
  | nil => intro h; cases h
  | cons p d ih =>
    intro h
    obtain ⟨k₁, v₁⟩ := p
    rw [List.map_cons]
    by_cases hp : k₁ = k
    · have hhead : (if (k₁, v₁).1 = k then (k, v) else (k₁, v₁)) = (k, v) := by
        simp [hp]
      rw [hhead]
      simp [lookupKey]
    · have hhead : (if (k₁, v₁).1 = k then (k, v) else (k₁, v₁)) = (k₁, v₁) := by
        simp [hp]
      rw [hhead]
      simp only [List.map_cons, List.mem_cons] at h
      rcases h with h | h
      · exact absurd h.symm hp
      · simpa [lookupKey, hp] using ih h

theorem lookupKey_replace_ne (k kq : String) (v : α) (hne : kq ≠ k) :
    ∀ d : List (String × α),
      lookupKey kq (d.map (fun p => if p.1 = k then (k, v) else p)) =
        lookupKey kq d := by
  intro d
  induction d with
  | nil => rfl
  | cons p d ih =>
    obtain ⟨k₁, v₁⟩ := p
    rw [List.map_cons]
    by_cases hp : k₁ = k
    · have hhead : (if (k₁, v₁).1 = k then (k, v) else (k₁, v₁)) = (k, v) := by
        simp [hp]
      rw [hhead]
      have hkq : ¬(k = kq) := fun h => hne h.symm
      have hkq₁ : ¬(k₁ = kq) := fun h => hne (h.symm.trans hp)
      simp only [lookupKey, if_neg hkq, if_neg hkq₁]
      exact ih
    · have hhead : (if (k₁, v₁).1 = k then (k, v) else (k₁, v₁)) = (k₁, v₁) := by
        simp [hp]
      rw [hhead]
      by_cases hq : k₁ = kq
      · simp [lookupKey, hq]
      · simp only [lookupKey, if_neg hq]
        exact ih

theorem lookupKey_append_single_self (k : String) (v : α) :
    ∀ d : List (String × α), k ∉ d.map Prod.fst →
      lookupKey k (d ++ [(k, v)]) = some v := by
  intro d
  induction d with
  | nil => simp [lookupKey]
  | cons p d ih =>
    intro h
    obtain ⟨k₁, v₁⟩ := p
    simp only [List.map_cons, List.mem_cons, not_or] at h
    rw [List.cons_append]
    simp only [lookupKey]
    rw [if_neg (fun heq => h.1 heq.symm)]
    exact ih h.2

theorem lookupKey_append_single_ne (k kq : String) (v : α) (hne : kq ≠ k) :
    ∀ d : List (String × α), lookupKey kq (d ++ [(k, v)]) = lookupKey kq d := by
  intro d
  induction d with
  | nil =>
    simp only [List.nil_append, lookupKey]
    rw [if_neg (fun heq => hne heq.symm)]
  | cons p d ih =>
    obtain ⟨k₁, v₁⟩ := p
    rw [List.cons_append]
    simp only [lookupKey]
    by_cases hq : k₁ = kq
    · simp [hq]
    · rw [if_neg hq, if_neg hq]
      exact ih

theorem lookupKey_dictSet_self (d : List (String × α)) (k : String) (v : α) :
    lookupKey k (dictSet d k v) = some v := by
  unfold dictSet
  by_cases h : k ∈ d.map Prod.fst
  · rw [if_pos ((any_key_iff d k).mpr h)]
    exact lookupKey_replace_self k v d h
  · rw [if_neg (fun hc => h ((any_key_iff d k).mp hc))]
    exact lookupKey_append_single_self k v d h

theorem lookupKey_dictSet_ne (d : List (String × α)) (k kq : String) (v : α)
    (hne : kq ≠ k) : lookupKey kq (dictSet d k v) = lookupKey kq d := by
  unfold dictSet
  by_cases h : k ∈ d.map Prod.fst
  · rw [if_pos ((any_key_iff d k).mpr h)]
    exact lookupKey_replace_ne k kq v hne d
  · rw [if_neg (fun hc => h ((any_key_iff d k).mp hc))]
    exact lookupKey_append_single_ne k kq v hne d

theorem keys_dictSet_of_mem (d : List (String × α)) (k : String) (v : α)
    (h : k ∈ d.map Prod.fst) :
    (dictSet d k v).map Prod.fst = d.map Prod.fst := by
  unfold dictSet
  rw [if_pos ((any_key_iff d k).mpr h), List.map_map]
  apply List.map_congr_left
  intro p _
  by_cases hp : p.1 = k
  · simp [Function.comp, hp]
  · simp [Function.comp, hp]

theorem keys_dictSet_of_not_mem (d : List (String × α)) (k : String) (v : α)
    (h : k ∉ d.map Prod.fst) :
    (dictSet d k v).map Prod.fst = d.map Prod.fst ++ [k] := by
  unfold dictSet
  rw [if_neg (fun hc => h ((any_key_iff d k).mp hc)), List.map_append]
  rfl

theorem nodup_keys_dictSet (d : List (String × α)) (k : String) (v : α)
    (h : (d.map Prod.fst).Nodup) : ((dictSet d k v).map Prod.fst).Nodup := by
  by_cases hk : k ∈ d.map Prod.fst
  · rw [keys_dictSet_of_mem d k v hk]
    exact h
  · rw [keys_dictSet_of_not_mem d k v hk]
    simp [List.nodup_append, h, hk]

theorem mem_dictSet (d : List (String × α)) (k : String) (v : α)
    (c : String × α) (hc : c ∈ dictSet d k v) : c = (k, v) ∨ c ∈ d := by
  unfold dictSet at hc
  by_cases hk : (d.any (fun p => p.1 = k)) = true
  · rw [if_pos hk] at hc
    rcases List.mem_map.mp hc with ⟨p, hp, hgp⟩
    by_cases hpk : p.1 = k
    · rw [if_pos hpk] at hgp
      exact Or.inl hgp.symm
    · rw [if_neg hpk] at hgp
      exact Or.inr (hgp ▸ hp)
  · rw [if_neg hk] at hc
    rcases List.mem_append.mp hc with hc | hc
    · exact Or.inr hc
    · simp only [List.mem_singleton] at hc
      exact Or.inl hc

theorem lookupKey_foldColumns (cols : String → List Cell) (q : String) :
    ∀ (ps : List String) (d : Table),
      lookupKey q (foldColumns cols ps d) =
        if q ∈ ps then some (cols q) else lookupKey q d := by
  intro ps
  induction ps with
  | nil => intro d; simp [foldColumns]
  | cons p ps ih =>
    intro d
    show lookupKey q (foldColumns cols ps (dictSet d p (cols p))) = _
    rw [ih]
    by_cases hps : q ∈ ps
    · rw [if_pos hps, if_pos (List.mem_cons_of_mem p hps)]
    · by_cases hq : q = p
      · subst hq
        rw [if_neg hps, if_pos (List.mem_cons_self q ps),
          lookupKey_dictSet_self]
      · rw [if_neg hps, if_neg (by simp [List.mem_cons, hq, hps]),
          lookupKey_dictSet_ne d p q (cols p) hq]

theorem keys_foldColumns (cols : String → List Cell) :
    ∀ (ps : List String) (d : Table), ps.Nodup →
      (∀ p ∈ ps, p ∉ d.map Prod.fst) →
      (foldColumns cols ps d).map Prod.fst = d.map Prod.fst ++ ps := by
  intro ps
  induction ps with
  | nil => intro d _ _; simp [foldColumns]
  | cons p ps ih =>
    intro d hnd hdisj
    show (foldColumns cols ps (dictSet d p (cols p))).map Prod.fst = _
    rw [ih (dictSet d p (cols p)) (List.nodup_cons.mp hnd).2]
    · rw [keys_dictSet_of_not_mem d p (cols p)
        (hdisj p (List.mem_cons_self p ps))]
      simp
    · intro q hq
      rw [keys_dictSet_of_not_mem d p (cols p)
        (hdisj p (List.mem_cons_self p ps))]
      simp only [List.mem_append, List.mem_singleton, not_or]
      exact ⟨hdisj q (List.mem_cons_of_mem p hq),
        fun hqp => (List.nodup_cons.mp hnd).1 (hqp ▸ hq)⟩

theorem nodup_keys_foldColumns (cols : String → List Cell) :
    ∀ (ps : List String) (d : Table), (d.map Prod.fst).Nodup →
      ((foldColumns cols ps d).map Prod.fst).Nodup := by
  intro ps
  induction ps with
  | nil => intro d h; exact h
  | cons p ps ih =>
    intro d h
    exact ih (dictSet d p (cols p)) (nodup_keys_dictSet d p (cols p) h)

theorem len_foldColumns (cols : String → List Cell) (n : Nat)
    (hcols : ∀ p, (cols p).length = n) :
    ∀ (ps : List String) (d : Table), (∀ c ∈ d, c.2.length = n) →
      ∀ c ∈ foldColumns cols ps d, c.2.length = n := by
  intro ps
  induction ps with
  | nil => intro d h; exact h
  | cons p ps ih =>
    intro d h
    apply ih (dictSet d p (cols p))
    intro c hc
    rcases mem_dictSet d p (cols p) c hc with rfl | hc
    · exact hcols p
    · exact h c hc


/-! ## Deduplication, sorting and selection lemmas -/

theorem mem_dedupKeys (k : String) : ∀ l : List String, k ∈ dedupKeys l ↔ k ∈ l := by
  intro l
  induction l with
  | nil => simp [dedupKeys]
  | cons k₁ ks ih =>
    by_cases hk : k = k₁
    · subst hk
      simp [dedupKeys]
    · simp [dedupKeys, List.mem_filter, hk, ih]

theorem nodup_dedupKeys : ∀ l : List String, (dedupKeys l).Nodup := by
  intro l
  induction l with
  | nil => simp [dedupKeys]
  | cons k₁ ks ih =>
    rw [dedupKeys, List.nodup_cons]
    refine ⟨fun hmem => ?_, ih.filter _⟩
    have := (List.mem_filter.mp hmem).2
    simp at this

theorem sortDesc_perm (l : List Trial) : (sortDesc l).Perm l :=
  List.perm_insertionSort sortRel l

theorem sortDesc_sorted (l : List Trial) : (sortDesc l).Sorted sortRel :=
  List.sorted_insertionSort sortRel l

theorem sortDesc_length (l : List Trial) : (sortDesc l).length = l.length :=
  (sortDesc_perm l).length_eq

theorem mem_sortDesc (t : Trial) (l : List Trial) : t ∈ sortDesc l ↔ t ∈ l :=
  (sortDesc_perm l).mem_iff

theorem filter_orderedInsert (p : Trial → Bool)
    (hp : ∀ x y, ¬ sortRel x y → p x = true → p y = false) (a : Trial) :
    ∀ l : List Trial, ((l.orderedInsert sortRel a).filter p) =
      if p a then a :: l.filter p else l.filter p := by
  intro l
  induction l with
  | nil =>
    cases hpa : p a <;> simp [List.orderedInsert, List.filter, hpa]
  | cons b bs ih =>
    by_cases hr : sortRel a b
    · rw [List.orderedInsert, if_pos hr]
      cases hpa : p a <;> simp [List.filter_cons, hpa]
    · rw [List.orderedInsert, if_neg hr]
      cases hpa : p a with
      | true =>
        have hpb := hp a b hr hpa
        simp [List.filter_cons, hpb, ih, hpa]
      | false =>
        simp [List.filter_cons, ih, hpa]

theorem filter_sortDesc (p : Trial → Bool)
    (hp : ∀ x y, ¬ sortRel x y → p x = true → p y = false) :
    ∀ l : List Trial, (sortDesc l).filter p = l.filter p := by
  intro l
  induction l with
  | nil => rfl
  | cons t l ih =>
    show ((List.insertionSort sortRel l).orderedInsert sortRel t).filter p = _
    rw [filter_orderedInsert p hp t (List.insertionSort sortRel l)]
    cases hpt : p t <;> simp [List.filter_cons, hpt] <;> exact ih

theorem sortFail_iff (l : List Trial) :
    (2 ≤ l.length ∧ l.any (fun t => t.value.isNone) = true) ↔
      ¬(2 ≤ l.length → ∀ t ∈ l, t.value ≠ none) := by
  constructor
  · rintro ⟨h1, h2⟩ h
    rcases List.any_eq_true.mp h2 with ⟨t, ht, hv⟩
    exact h h1 t ht (Option.isNone_iff_eq_none.mp hv)
  · intro h
    push_neg at h
    obtain ⟨h1, t, ht, hv⟩ := h
    exact ⟨h1, List.any_eq_true.mpr ⟨t, ht, Option.isNone_iff_eq_none.mpr hv⟩⟩

theorem pySort_ok_iff (l : List Trial) (st : List Trial) :
    pySortByValueDesc l = Except.ok st ↔
      ((2 ≤ l.length → ∀ t ∈ l, t.value ≠ none) ∧ st = sortDesc l) := by
  unfold pySortByValueDesc
  by_cases h : 2 ≤ l.length ∧ l.any (fun t => t.value.isNone) = true
  · rw [if_pos h]
    constructor
    · intro hco; cases hco
    · rintro ⟨h1, _⟩
      exact absurd h1 ((sortFail_iff l).mp h)
  · rw [if_neg h]
    have h1 : 2 ≤ l.length → ∀ t ∈ l, t.value ≠ none := by
      by_contra hc
      exact h ((sortFail_iff l).mpr hc)
    constructor
    · intro hok
      cases hok
      exact ⟨h1, rfl⟩
    · rintro ⟨_, rfl⟩
      rfl

theorem selectedOf_length (trials : List Trial) (topN : Nat) :
    (selectedOf trials topN).length = min topN trials.length := by
  simp [selectedOf, List.length_take, sortDesc_length]

theorem mem_selectedOf (t : Trial) (trials : List Trial) (topN : Nat)
    (h : t ∈ selectedOf trials topN) : t ∈ trials :=
  (mem_sortDesc t trials).mp (List.take_subset topN (sortDesc trials) h)

theorem selectedOf_pairwise (trials : List Trial) (topN : Nat) :
    (selectedOf trials topN).Pairwise sortRel :=
  List.Pairwise.sublist (List.take_sublist topN (sortDesc trials))
    (sortDesc_sorted trials)


/-! ## Context extraction and table-assembly lemmas -/

theorem getContext_ok_iff (t : Trial) (c : List (String × Cell)) :
    getContext t = Except.ok c ↔ t.context = some c := by
  cases hc : t.context <;> simp [getContext, hc]

theorem getContext_error (t : Trial) (e : Err)
    (h : getContext t = Except.error e) : e = Err.missingContext := by
  cases hc : t.context <;> simp [getContext, hc] at h
  · exact h.symm

theorem ctxGet_ok_iff (c : List (String × Cell)) (f : String) (v : Cell) :
    ctxGet c f = Except.ok v ↔ lookupKey f c = some v := by
  cases hv : lookupKey f c <;> simp [ctxGet, hv]

theorem ctxGet_error (c : List (String × Cell)) (f : String) (e : Err)
    (h : ctxGet c f = Except.error e) : e = Err.missingField f := by
  cases hv : lookupKey f c <;> simp [ctxGet, hv] at h
  · exact h.symm

theorem ctxColumn_ok_iff (cs : List (List (String × Cell))) (f : String) :
    (∃ col, ctxColumn cs f = Except.ok col) ↔
      ∀ c ∈ cs, (lookupKey f c).isSome := by
  constructor
  · rintro ⟨col, h⟩ c hc
    rcases mapM_ok_forall _ cs col h c hc with ⟨v, hv⟩
    rw [(ctxGet_ok_iff c f v).mp hv]
    rfl
  · intro h
    refine ⟨cs.map (fun c => (lookupKey f c).getD Cell.null),
      mapM_eq_ok_map _ _ cs ?_⟩
    intro c hc
    rcases Option.isSome_iff_exists.mp (h c hc) with ⟨v, hv⟩
    simp [ctxGet, hv]

theorem ctxColumn_error (cs : List (List (String × Cell))) (f : String)
    (e : Err) (h : ctxColumn cs f = Except.error e) : e = Err.missingField f := by
  rcases mapM_error_mem _ cs e h with ⟨c, _, hc⟩
  exact ctxGet_error c f e hc

theorem ctxColumn_ok_length (cs : List (List (String × Cell))) (f : String)
    (col : List Cell) (h : ctxColumn cs f = Except.ok col) :
    col.length = cs.length :=
  mapM_ok_length _ cs col h

theorem ctxTable_cons (cs : List (List (String × Cell))) (f : String)
    (fs : List String) (d : Table) :
    ctxTable cs (f :: fs) d =
      (ctxColumn cs f) >>= (fun col => ctxTable cs fs (dictSet d f col)) := rfl

theorem ctxTable_ok_iff (cs : List (List (String × Cell))) :
    ∀ (fields : List String) (d : Table),
      (∃ out, ctxTable cs fields d = Except.ok out) ↔
        ∀ f ∈ fields, ∀ c ∈ cs, (lookupKey f c).isSome := by
  intro fields
  induction fields with
  | nil => intro d; simp [ctxTable]
  | cons f fs ih =>
    intro d
    constructor
    · rintro ⟨out, hout⟩ g hg c hc
      rw [ctxTable_cons] at hout
      cases hcol : ctxColumn cs f with
      | error e => rw [hcol, exceptBind_error] at hout; cases hout
      | ok col =>
        rw [hcol, exceptBind_ok] at hout
        rcases List.mem_cons.mp hg with rfl | hg
        · exact (ctxColumn_ok_iff cs g).mp ⟨col, hcol⟩ c hc
        · exact (ih (dictSet d f col)).mp ⟨out, hout⟩ g hg c hc
    · intro h
      have hf : ∀ c ∈ cs, (lookupKey f c).isSome :=
        fun c hc => h f (List.mem_cons_self f fs) c hc
      rcases (ctxColumn_ok_iff cs f).mpr hf with ⟨col, hcol⟩
      rcases (ih (dictSet d f col)).mpr
        (fun g hg c hc => h g (List.mem_cons_of_mem f hg) c hc) with ⟨out, hout⟩
      refine ⟨out, ?_⟩
      rw [ctxTable_cons, hcol, exceptBind_ok]
      exact hout

theorem ctxTable_ok_lookup_not_mem (cs : List (List (String × Cell))) :
    ∀ (fields : List String) (d out : Table),
      ctxTable cs fields d = Except.ok out →
      ∀ k, k ∉ fields → lookupKey k out = lookupKey k d := by
  intro fields
  induction fields with
  | nil =>
    intro d out h k _
    cases h; rfl
  | cons f fs ih =>
    intro d out h k hk
    rw [ctxTable_cons] at h
    cases hcol : ctxColumn cs f with
    | error e => rw [hcol, exceptBind_error] at h; cases h
    | ok col =>
      rw [hcol, exceptBind_ok] at h
      simp only [List.mem_cons, not_or] at hk
      rw [ih (dictSet d f col) out h k hk.2]
      exact lookupKey_dictSet_ne d f k col hk.1

theorem ctxTable_ok_lookup_mem (cs : List (List (String × Cell))) :
    ∀ (fields : List String) (d out : Table),
      ctxTable cs fields d = Except.ok out →
      ∀ f ∈ fields, ∃ col, ctxColumn cs f = Except.ok col ∧
        lookupKey f out = some col := by
  intro fields
  induction fields with
  | nil => intro d out _ f hf; cases hf
  | cons g fs ih =>
    intro d out h f hf
    rw [ctxTable_cons] at h
    cases hcol : ctxColumn cs g with
    | error e => rw [hcol, exceptBind_error] at h; cases h
    | ok col =>
      rw [hcol, exceptBind_ok] at h
      by_cases hfs : f ∈ fs
      · exact ih (dictSet d g col) out h f hfs
      · rcases List.mem_cons.mp hf with rfl | hmem
        · refine ⟨col, hcol, ?_⟩
          rw [ctxTable_ok_lookup_not_mem cs fs (dictSet d f col) out h f hfs]
          exact lookupKey_dictSet_self d f col
        · exact absurd hmem hfs

theorem ctxTable_ok_keys (cs : List (List (String × Cell))) :
    ∀ (fields : List String) (d out : Table),
      ctxTable cs fields d = Except.ok out → fields.Nodup →
      (∀ f ∈ fields, f ∉ d.map Prod.fst) →
      out.map Prod.fst = d.map Prod.fst ++ fields := by
  intro fields
  induction fields with
  | nil =>
    intro d out h _ _
    cases h; simp
  | cons f fs ih =>
    intro d out h hnd hdisj
    rw [ctxTable_cons] at h
    cases hcol : ctxColumn cs f with
    | error e => rw [hcol, exceptBind_error] at h; cases h
    | ok col =>
      rw [hcol, exceptBind_ok] at h
      have hkeys := keys_dictSet_of_not_mem d f col
        (hdisj f (List.mem_cons_self f fs))
      rw [ih (dictSet d f col) out h (List.nodup_cons.mp hnd).2 ?_, hkeys]
      · simp
      · intro g hg
        rw [hkeys]
        simp only [List.mem_append, List.mem_singleton, not_or]
        exact ⟨hdisj g (List.mem_cons_of_mem f hg),
          fun hgf => (List.nodup_cons.mp hnd).1 (hgf ▸ hg)⟩

theorem ctxTable_ok_nodup (cs : List (List (String × Cell))) :
    ∀ (fields : List String) (d out : Table),
      ctxTable cs fields d = Except.ok out → (d.map Prod.fst).Nodup →
      (out.map Prod.fst).Nodup := by
  intro fields
  induction fields with
  | nil => intro d out h hd; cases h; exact hd
  | cons f fs ih =>
    intro d out h hd
    rw [ctxTable_cons] at h
    cases hcol : ctxColumn cs f with
    | error e => rw [hcol, exceptBind_error] at h; cases h
    | ok col =>
      rw [hcol, exceptBind_ok] at h
      exact ih (dictSet d f col) out h (nodup_keys_dictSet d f col hd)

theorem ctxTable_ok_len (cs : List (List (String × Cell))) (n : Nat)
    (hcs : cs.length = n) :
    ∀ (fields : List String) (d out : Table),
      ctxTable cs fields d = Except.ok out → (∀ c ∈ d, c.2.length = n) →
      ∀ c ∈ out, c.2.length = n := by
  intro fields
  induction fields with
  | nil => intro d out h hd; cases h; exact hd
  | cons f fs ih =>
    intro d out h hd
    rw [ctxTable_cons] at h
    cases hcol : ctxColumn cs f with
    | error e => rw [hcol, exceptBind_error] at h; cases h
    | ok col =>
      rw [hcol, exceptBind_ok] at h
      apply ih (dictSet d f col) out h
      intro c hc
      rcases mem_dictSet d f col c hc with rfl | hc
      · rw [ctxColumn_ok_length cs f col hcol]
        exact hcs
      · exact hd c hc

theorem ctxTable_error_shape (cs : List (List (String × Cell))) :
    ∀ (fields : List String) (d : Table) (e : Err),
      ctxTable cs fields d = Except.error e → ∃ f, e = Err.missingField f := by
  intro fields
  induction fields with
  | nil => intro d e h; cases h
  | cons f fs ih =>
    intro d e h
    rw [ctxTable_cons] at h
    cases hcol : ctxColumn cs f with
    | error e₁ =>
      rw [hcol, exceptBind_error] at h
      cases h
      exact ⟨f, ctxColumn_error cs f _ hcol⟩
    | ok col =>
      rw [hcol, exceptBind_ok] at h
      exact ih (dictSet d f col) e h

theorem mapM_getContext_ok (l : List Trial) (cs : List (List (String × Cell)))
    (h : l.mapM getContext = Except.ok cs) :
    (∀ t ∈ l, ∃ c, t.context = some c) ∧
      cs = l.map (fun t => t.context.getD []) := by
  have hall : ∀ t ∈ l, ∃ c, getContext t = Except.ok c := mapM_ok_forall _ l cs h
  have hctx : ∀ t ∈ l, ∃ c, t.context = some c :=
    fun t ht => (hall t ht).imp (fun c hc => (getContext_ok_iff t c).mp hc)
  refine ⟨hctx, mapM_ok_eq_map _ _ l cs h ?_⟩
  intro t ht
  rcases hctx t ht with ⟨c, hc⟩
  simp [getContext, hc]

theorem mapM_getContext_of_forall (l : List Trial)
    (h : ∀ t ∈ l, ∃ c, t.context = some c) :
    l.mapM getContext = Except.ok (l.map (fun t => t.context.getD [])) := by
  apply mapM_eq_ok_map
  intro t ht
  rcases h t ht with ⟨c, hc⟩
  simp [getContext, hc]

theorem mapM_getContext_error (l : List Trial) (e : Err)
    (h : l.mapM getContext = Except.error e) : e = Err.missingContext := by
  rcases mapM_error_mem _ l e h with ⟨t, _, ht⟩
  exact getContext_error t e ht

theorem mem_allParams (p : String) (sel : List Trial) :
    p ∈ allParams sel ↔ ∃ t ∈ sel, p ∈ t.params.map Prod.fst := by
  simp [allParams, mem_dedupKeys, List.mem_flatMap]


/-! ## Unfolding the `display_top_trials` pipeline -/

theorem displayTopTrials_eq (trials : List Trial) (fields : List String)
    (topN : Nat) (st : List Trial) (cs : List (List (String × Cell)))
    (h1 : pySortByValueDesc trials = Except.ok st)
    (h2 : (st.take topN).mapM getContext = Except.ok cs) :
    displayTopTrials trials fields topN =
      ctxTable cs fields (paramTable (st.take topN)
        [("Objective Value", objColumn (st.take topN))]) := by
  simp only [displayTopTrials, h1, h2, exceptBind_ok]

theorem displayTopTrials_ok_inv (trials : List Trial) (fields : List String)
    (topN : Nat) (tbl : Table)
    (h : displayTopTrials trials fields topN = Except.ok tbl) :
    ∃ cs, (2 ≤ trials.length → ∀ t ∈ trials, t.value ≠ none) ∧
      (selectedOf trials topN).mapM getContext = Except.ok cs ∧
      ctxTable cs fields (paramTable (selectedOf trials topN)
        [("Objective Value", objColumn (selectedOf trials topN))]) =
          Except.ok tbl := by
  cases h1 : pySortByValueDesc trials with
  | error e =>
    simp only [displayTopTrials, h1, exceptBind_error] at h
    cases h
  | ok st =>
    obtain ⟨hval, rfl⟩ := (pySort_ok_iff trials st).mp h1
    cases h2 : ((sortDesc trials).take topN).mapM getContext with
    | error e =>
      simp only [displayTopTrials, h1, h2, exceptBind_ok, exceptBind_error] at h
      cases h
    | ok cs =>
      rw [displayTopTrials_eq trials fields topN _ cs h1 h2] at h
      exact ⟨cs, hval, h2, h⟩

theorem displayTopTrials_error_classify (trials : List Trial)
    (fields : List String) (topN : Nat) (e : Err) (st : List Trial)
    (h1 : pySortByValueDesc trials = Except.ok st)
    (h : displayTopTrials trials fields topN = Except.error e) :
    e.isMissingContextErr = true := by
  cases h2 : (st.take topN).mapM getContext with
  | error e₂ =>
    simp only [displayTopTrials, h1, h2, exceptBind_ok, exceptBind_error] at h
    cases h
    rw [mapM_getContext_error _ _ h2]
    rfl
  | ok cs =>
    rw [displayTopTrials_eq trials fields topN st cs h1 h2] at h
    rcases ctxTable_error_shape cs fields _ e h with ⟨f, rfl⟩
    rfl

theorem lookupKey_objRow (p : String) (col : List Cell) :
    lookupKey p [("Objective Value", col)] =
      if "Objective Value" = p then some col else none := by
  simp [lookupKey]


theorem nodup_allParams (sel : List Trial) : (allParams sel).Nodup :=
  nodup_dedupKeys _

/-- Success characterisation of `display_top_trials`: it returns a table
exactly when the sort does not compare a missing value (no missing value
anywhere once the study has two or more trials) and every selected trial
has a `"context"` entry containing every requested field. -/
theorem display_ok_char (trials : List Trial) (fields : List String)
    (topN : Nat) :
    (∃ tbl, displayTopTrials trials fields topN = Except.ok tbl) ↔
      ((2 ≤ trials.length → ∀ t ∈ trials, t.value ≠ none) ∧
        ∀ t ∈ selectedOf trials topN, ∃ c, t.context = some c ∧
          ∀ f ∈ fields, (lookupKey f c).isSome) := by
  constructor
  · rintro ⟨tbl, htbl⟩
    rcases displayTopTrials_ok_inv trials fields topN tbl htbl with ⟨cs, hval, h2, h3⟩
    obtain ⟨hctx, rfl⟩ := mapM_getContext_ok _ _ h2
    refine ⟨hval, fun t ht => ?_⟩
    rcases hctx t ht with ⟨c, hc⟩
    refine ⟨c, hc, fun f hf => ?_⟩
    apply (ctxTable_ok_iff _ fields _).mp ⟨tbl, h3⟩ f hf
    exact List.mem_map.mpr ⟨t, ht, by simp [hc]⟩
  · rintro ⟨hval, hctx⟩
    have h1 : pySortByValueDesc trials = Except.ok (sortDesc trials) :=
      (pySort_ok_iff trials (sortDesc trials)).mpr ⟨hval, rfl⟩
    have h2 : (selectedOf trials topN).mapM getContext =
        Except.ok ((selectedOf trials topN).map (fun t => t.context.getD [])) :=
      mapM_getContext_of_forall _ (fun t ht => (hctx t ht).imp (fun c hc => hc.1))
    have h3 : ∀ f ∈ fields,
        ∀ c ∈ (selectedOf trials topN).map (fun t => t.context.getD []),
          (lookupKey f c).isSome := by
      intro f hf c hc
      rcases List.mem_map.mp hc with ⟨t, ht, rfl⟩
      rcases hctx t ht with ⟨c₁, hc₁, hfld⟩
      rw [hc₁]
      exact hfld f hf
    rcases (ctxTable_ok_iff _ fields (paramTable (selectedOf trials topN)
      [("Objective Value", objColumn (selectedOf trials topN))])).mpr h3
      with ⟨out, hout⟩
    refine ⟨out, ?_⟩
    rw [displayTopTrials_eq trials fields topN _ _ h1 h2]
    exact hout

theorem ctxTable_nil_contexts :
    ∀ (fields : List String) (d : Table), (∀ c ∈ d, c.2 = []) →
      ∃ out, ctxTable [] fields d = Except.ok out ∧ ∀ c ∈ out, c.2 = [] := by
  intro fields
  induction fields with
  | nil => intro d hd; exact ⟨d, rfl, hd⟩
  | cons f fs ih =>
    intro d hd
    have hd2 : ∀ c ∈ dictSet d f [], c.2 = [] := by
      intro c hc
      rcases mem_dictSet d f [] c hc with rfl | hc
      · rfl
      · exact hd c hc
    rcases ih (dictSet d f []) hd2 with ⟨out, hout, hempty⟩
    refine ⟨out, ?_, hempty⟩
    rw [ctxTable_cons]
    have hcol : ctxColumn [] f = Except.ok [] := rfl
    rw [hcol, exceptBind_ok]
    exact hout

/-! ## The claims -/

/-- C8: on the study with three trials of objective values 0.2, 0.9 and 0.5,
parameter dicts a=1 / a=2,b=3 / b=4, and contexts tag=x / tag=y / tag=z, the
call `display_top_trials(["tag"], top_N=2)` prints exactly two rows in the
order (0.9, a=2, b=3, tag=y) then (0.5, a="N/A", b=4, tag=z). -/
theorem display_top_trials_example :
    displayTopTrials
      [⟨some (mkRat 2 10), [("a", Cell.num 1)], some [("tag", Cell.str "x")]⟩,
       ⟨some (mkRat 9 10), [("a", Cell.num 2), ("b", Cell.num 3)],
         some [("tag", Cell.str "y")]⟩,
       ⟨some (mkRat 5 10), [("b", Cell.num 4)], some [("tag", Cell.str "z")]⟩]
      ["tag"] 2 =
    Except.ok
      [("Objective Value", [Cell.num (mkRat 9 10), Cell.num (mkRat 5 10)]),
       ("a", [Cell.num 2, NA]),
       ("b", [Cell.num 3, Cell.num 4]),
       ("tag", [Cell.str "y", Cell.str "z"])] := rfl

/-- C4 counterexample: on a study whose single trial lacks an objective
value (and has a context entry), `display_top_trials([], 5)` succeeds and
prints a one-row table, although the selected trial has no objective value
— the claim says the call must propagate an error in that case. -/
theorem display_top_trials_missing_value_trial_succeeds :
    displayTopTrials [⟨none, [], some []⟩] [] 5 =
      Except.ok [("Objective Value", [Cell.null])] := rfl

/-- C4 (amended): `display_top_trials` succeeds iff (a) no trial of the
study — selected or not — lacks an objective value whenever the study has
at least two trials (with a single trial a missing value is tolerated, and
a missing value in a non-selected trial already makes the sort fail), and
(b) every selected trial has a `"context"` entry containing every
requested context field.  It fails exactly otherwise. -/
theorem display_top_trials_ok_iff (trials : List Trial)
    (fields : List String) (topN : Nat) :
    (∃ tbl, displayTopTrials trials fields topN = Except.ok tbl) ↔
      ((2 ≤ trials.length → ∀ t ∈ trials, t.value ≠ none) ∧
        ∀ t ∈ selectedOf trials topN, ∃ c, t.context = some c ∧
          ∀ f ∈ fields, (lookupKey f c).isSome) :=
  display_ok_char trials fields topN

/-- C9: on a study with zero trials `display_top_trials` succeeds for
every requested field list and every `top_N`, printing an empty table
(all columns have no rows); no missing-value or missing-context error is
raised because every per-trial extraction iterates over an empty
selection. -/
theorem display_top_trials_empty_study (fields : List String) (topN : Nat) :
    ∃ tbl, displayTopTrials [] fields topN = Except.ok tbl ∧
      ∀ c ∈ tbl, c.2 = [] := by
  have htake : (sortDesc []).take topN = [] := by
    simp [sortDesc, List.insertionSort]
  have h1 : pySortByValueDesc [] = Except.ok (sortDesc []) :=
    (pySort_ok_iff _ _).mpr ⟨by simp, rfl⟩
  have h2 : ((sortDesc []).take topN).mapM getContext =
      Except.ok ([] : List (List (String × Cell))) := by
    rw [htake]
    rfl
  have hd0 : ∀ c ∈ paramTable ((sortDesc []).take topN)
      [("Objective Value", objColumn ((sortDesc []).take topN))], c.2 = [] := by
    rw [htake]
    intro c hc
    have hpt : paramTable [] [("Objective Value", objColumn [])] =
        [("Objective Value", objColumn [])] := rfl
    rw [hpt] at hc
    rcases List.mem_singleton.mp hc with rfl
    rfl
  rcases ctxTable_nil_contexts fields
    (paramTable ((sortDesc []).take topN)
      [("Objective Value", objColumn ((sortDesc []).take topN))]) hd0
    with ⟨out, hout, hempty⟩
  refine ⟨out, ?_, hempty⟩
  rw [displayTopTrials_eq [] fields topN (sortDesc []) [] h1 h2]
  exact hout


/-- C5: if all trials have objective values (so the sort succeeds) and some
selected trial's context sub-mapping lacks a requested field, the call
fails with a missing-context error (per the spec's §7 taxonomy: either the
missing-field error itself or, if an earlier selected trial lacks its
`"context"` entry altogether, the missing-context error) — and, the result
being an error, the table is never printed (the single `print` is the last
statement of the method, after all extraction). -/
theorem display_top_trials_missing_field_error (trials : List Trial)
    (fields : List String) (topN : Nat)
    (hv : ∀ t ∈ trials, t.value ≠ none)
    (hmiss : ∃ t ∈ selectedOf trials topN, ∃ c, t.context = some c ∧
      ∃ f ∈ fields, lookupKey f c = none) :
    ∃ e, displayTopTrials trials fields topN = Except.error e ∧
      e.isMissingContextErr = true := by
  have h1 : pySortByValueDesc trials = Except.ok (sortDesc trials) :=
    (pySort_ok_iff _ _).mpr ⟨fun _ => hv, rfl⟩
  cases hres : displayTopTrials trials fields topN with
  | ok tbl =>
    exfalso
    rcases hmiss with ⟨t, ht, c, hc, f, hf, hnone⟩
    rcases ((display_ok_char trials fields topN).mp ⟨tbl, hres⟩).2 t ht
      with ⟨c₁, hc₁, hfld⟩
    rw [hc] at hc₁
    cases hc₁
    have := hfld f hf
    rw [hnone] at this
    cases this
  | error e =>
    exact ⟨e, rfl, displayTopTrials_error_classify trials fields topN e _ h1 hres⟩

/-- Witness for C5: a study with one trial whose context is the mapping
x=1; requesting the absent field y makes the call fail with a
missing-context error and print nothing. -/
theorem display_top_trials_missing_field_error_witness :
    ∃ e, displayTopTrials [⟨some 1, [], some [("x", Cell.num 1)]⟩] ["y"] 5 =
      Except.error e ∧ e.isMissingContextErr = true :=
  display_top_trials_missing_field_error
    [⟨some 1, [], some [("x", Cell.num 1)]⟩] ["y"] 5
    (by decide)
    ⟨⟨some 1, [], some [("x", Cell.num 1)]⟩, by decide,
      [("x", Cell.num 1)], rfl, "y", by decide, rfl⟩

/-- C6 counterexample: one trial with parameters a=2, b=3 and context a=X;
requesting the context field "a" makes the context column overwrite the
parameter column "a" in place, so the printed columns are
[Objective Value, a, b] with the "a" column holding the context value —
the context-field column does not come after the parameter columns, and no
reading of the table has shape "objective, then parameters, then the
requested context fields". -/
theorem display_top_trials_context_column_not_last :
    ∃ tbl, displayTopTrials
        [⟨some 1, [("a", Cell.num 2), ("b", Cell.num 3)],
          some [("a", Cell.str "X")]⟩] ["a"] 1 = Except.ok tbl ∧
      tbl.map Prod.fst = ["Objective Value", "a", "b"] ∧
      lookupKey "a" tbl = some [Cell.str "X"] ∧
      ∀ ps : List String,
        tbl.map Prod.fst ≠ "Objective Value" :: (ps ++ ["a"]) := by
  refine ⟨[("Objective Value", [Cell.num 1]), ("a", [Cell.str "X"]),
    ("b", [Cell.num 3])], rfl, rfl, rfl, ?_⟩
  intro ps h
  have h2 : ("Objective Value" :: (ps ++ ["a"]) : List String) =
      ("Objective Value" :: ps) ++ ["a"] := by simp
  rw [h2] at h
  have h3 := congrArg List.getLast? h
  rw [List.getLast?_concat] at h3
  simp at h3

/-- C6 (amended): provided the requested context-field names are pairwise
distinct and collide neither with "Objective Value" nor with any parameter
name of the selected trials (and no parameter is named "Objective Value"),
the columns appear in the order: objective value, then the parameter
columns (set iteration order determinised as first appearance), then the
context fields in caller order.  When a requested field collides with an
existing column name, its column instead overwrites that column in place,
keeping the earlier position. -/
theorem display_top_trials_column_order (trials : List Trial)
    (fields : List String) (topN : Nat) (tbl : Table)
    (hok : displayTopTrials trials fields topN = Except.ok tbl)
    (hnd : fields.Nodup)
    (hOVf : "Objective Value" ∉ fields)
    (hOVp : "Objective Value" ∉ allParams (selectedOf trials topN))
    (hdisj : ∀ f ∈ fields, f ∉ allParams (selectedOf trials topN)) :
    tbl.map Prod.fst =
      "Objective Value" :: (allParams (selectedOf trials topN) ++ fields) := by
  rcases displayTopTrials_ok_inv trials fields topN tbl hok with ⟨cs, _, _, h3⟩
  have hkeys1 : (paramTable (selectedOf trials topN)
      [("Objective Value", objColumn (selectedOf trials topN))]).map Prod.fst
      = "Objective Value" :: allParams (selectedOf trials topN) := by
    show (foldColumns _ _ _).map Prod.fst = _
    rw [keys_foldColumns (paramColumn (selectedOf trials topN))
      (allParams (selectedOf trials topN))
      [("Objective Value", objColumn (selectedOf trials topN))]
      (nodup_allParams _) ?_]
    · rfl
    · intro p hp
      simp only [List.map_cons, List.map_nil, List.mem_singleton]
      exact fun h => hOVp (h ▸ hp)
  have hkeys2 := ctxTable_ok_keys cs fields _ tbl h3 hnd ?_
  · rw [hkeys2, hkeys1]
    simp
  · intro f hf
    rw [hkeys1]
    simp only [List.mem_cons, not_or]
    exact ⟨fun h => hOVf (h ▸ hf), fun h => hdisj f hf h⟩

/-- Witness for C6 (amended): one trial with parameter a=2 and context
tag=y; the requested field "tag" collides with nothing, and the columns
come out as [Objective Value, a, tag]. -/
theorem display_top_trials_column_order_witness :
    ([("Objective Value", [Cell.num 1]), ("a", [Cell.num 2]),
      ("tag", [Cell.str "y"])] : Table).map Prod.fst =
      "Objective Value" ::
        (allParams (selectedOf
          [⟨some 1, [("a", Cell.num 2)], some [("tag", Cell.str "y")]⟩] 1) ++
          ["tag"]) :=
  display_top_trials_column_order
    [⟨some 1, [("a", Cell.num 2)], some [("tag", Cell.str "y")]⟩] ["tag"] 1
    [("Objective Value", [Cell.num 1]), ("a", [Cell.num 2]),
      ("tag", [Cell.str "y"])]
    rfl (by decide) (by decide) (by decide) (by decide)

/-- C10: in the assembled table, column names form a single namespace:
names are pairwise distinct (exactly one column per distinct name), and
every requested context field's column holds the context values of the
selected trials — when the field name coincides with a parameter name (or
with "Objective Value"), the context column has silently replaced the
earlier column of that name rather than producing two columns or an
error. -/
theorem display_top_trials_single_namespace (trials : List Trial)
    (fields : List String) (topN : Nat) (tbl : Table)
    (hok : displayTopTrials trials fields topN = Except.ok tbl) :
    (tbl.map Prod.fst).Nodup ∧
      ∀ f ∈ fields, ∃ col,
        ctxColumn ((selectedOf trials topN).map (fun t => t.context.getD []))
          f = Except.ok col ∧ lookupKey f tbl = some col := by
  rcases displayTopTrials_ok_inv trials fields topN tbl hok with ⟨cs, _, h2, h3⟩
  obtain ⟨_, rfl⟩ := mapM_getContext_ok _ _ h2
  constructor
  · apply ctxTable_ok_nodup _ fields _ tbl h3
    apply nodup_keys_foldColumns
    simp
  · intro f hf
    exact ctxTable_ok_lookup_mem _ fields _ tbl h3 f hf

/-- Witness for C10: one trial with parameter a=2 and context a=X;
requesting field "a" yields the two-column table whose "a" column holds
the context value X (the parameter column was replaced), names distinct. -/
theorem display_top_trials_single_namespace_witness :
    (([("Objective Value", [Cell.num 1]), ("a", [Cell.str "X"])] :
      Table).map Prod.fst).Nodup ∧
    ∃ col,
      ctxColumn ((selectedOf
        [⟨some 1, [("a", Cell.num 2)], some [("a", Cell.str "X")]⟩] 1).map
          (fun t => t.context.getD [])) "a" = Except.ok col ∧
        lookupKey "a" [("Objective Value", [Cell.num 1]),
          ("a", [Cell.str "X"])] = some col :=
  ⟨(display_top_trials_single_namespace
      [⟨some 1, [("a", Cell.num 2)], some [("a", Cell.str "X")]⟩] ["a"] 1
      [("Objective Value", [Cell.num 1]), ("a", [Cell.str "X"])] rfl).1,
    (display_top_trials_single_namespace
      [⟨some 1, [("a", Cell.num 2)], some [("a", Cell.str "X")]⟩] ["a"] 1
      [("Objective Value", [Cell.num 1]), ("a", [Cell.str "X"])] rfl).2
      "a" (by decide)⟩


/-- C3: for every study and every `top_N`, a name that is neither a
requested context field nor "Objective Value" is a column of the printed
table exactly when it belongs to the union of the parameter names of the
*selected* trials (not the full history), and that column lists, for each
selected trial in order, the trial's value for that parameter or the
literal "N/A" marker when the trial did not sample it; moreover the union
is exactly the set of names appearing in some selected trial's parameters. -/
theorem display_top_trials_param_columns (trials : List Trial)
    (fields : List String) (topN : Nat) (tbl : Table)
    (hok : displayTopTrials trials fields topN = Except.ok tbl) :
    (∀ p : String, p ∈ allParams (selectedOf trials topN) ↔
        ∃ t ∈ selectedOf trials topN, p ∈ t.params.map Prod.fst) ∧
    ∀ p : String, p ∉ fields → p ≠ "Objective Value" →
      lookupKey p tbl =
        if p ∈ allParams (selectedOf trials topN)
        then some ((selectedOf trials topN).map
          (fun t => (lookupKey p t.params).getD NA))
        else none := by
  refine ⟨fun p => mem_allParams p _, ?_⟩
  rcases displayTopTrials_ok_inv trials fields topN tbl hok with ⟨cs, _, _, h3⟩
  intro p hpf hpOV
  rw [ctxTable_ok_lookup_not_mem cs fields _ tbl h3 p hpf]
  show lookupKey p (foldColumns _ _ _) = _
  rw [lookupKey_foldColumns]
  by_cases hmem : p ∈ allParams (selectedOf trials topN)
  · rw [if_pos hmem, if_pos hmem]
    rfl
  · rw [if_neg hmem, if_neg hmem, lookupKey_objRow,
      if_neg (fun h => hpOV h.symm)]

/-- Witness for C3: two trials with parameter sets a,b and b; the column
"b" of the printed table lists both values, and the theorem's
characterisation evaluates to it. -/
theorem display_top_trials_param_columns_witness :
    lookupKey "b" [("Objective Value", [Cell.num 2, Cell.num 1]),
      ("a", [Cell.num 2, NA]), ("b", [Cell.num 3, Cell.num 4])] =
      some [Cell.num 3, Cell.num 4] := by
  have h := (display_top_trials_param_columns
    [⟨some 2, [("a", Cell.num 2), ("b", Cell.num 3)], some []⟩,
     ⟨some 1, [("b", Cell.num 4)], some []⟩] [] 2
    [("Objective Value", [Cell.num 2, Cell.num 1]),
      ("a", [Cell.num 2, NA]), ("b", [Cell.num 3, Cell.num 4])]
    rfl).2 "b" (by decide) (by decide)
  rw [h]
  rfl

/-- C1: on a study whose trials all have objective values, whenever
`display_top_trials` prints a table, every column has exactly
min(top_N, N) rows (so for top_N ≥ N exactly N rows: all trials appear);
the selected trials carry their values (`keyOf`), their values are
non-increasing down the rows, and (absent name collisions) the
"Objective Value" column lists exactly those values in that order. -/
theorem display_top_trials_top_rows (trials : List Trial)
    (fields : List String) (topN : Nat) (tbl : Table)
    (hv : ∀ t ∈ trials, t.value ≠ none)
    (hok : displayTopTrials trials fields topN = Except.ok tbl) :
    (∀ c ∈ tbl, c.2.length = min topN trials.length) ∧
    (∀ t ∈ selectedOf trials topN, t.value = some (keyOf t)) ∧
    ((selectedOf trials topN).map keyOf).Pairwise (fun a b => b ≤ a) ∧
    ("Objective Value" ∉ fields →
      "Objective Value" ∉ allParams (selectedOf trials topN) →
      lookupKey "Objective Value" tbl =
        some (objColumn (selectedOf trials topN))) := by
  rcases displayTopTrials_ok_inv trials fields topN tbl hok with ⟨cs, _, h2, h3⟩
  refine ⟨?_, ?_, ?_, ?_⟩
  · have hlen : ∀ c ∈ tbl, c.2.length = (selectedOf trials topN).length := by
      apply ctxTable_ok_len cs ((selectedOf trials topN).length)
        (mapM_ok_length _ _ _ h2) fields _ tbl h3
      apply len_foldColumns (paramColumn (selectedOf trials topN))
        ((selectedOf trials topN).length)
        (fun p => by simp [paramColumn]) (allParams (selectedOf trials topN))
      intro c hc
      rcases List.mem_singleton.mp hc with rfl
      simp [objColumn]
    intro c hc
    rw [hlen c hc, selectedOf_length]
  · intro t ht
    have htr := mem_selectedOf t trials topN ht
    cases hval : t.value with
    | none => exact absurd hval (hv t htr)
    | some v => simp [keyOf, hval]
  · exact (List.pairwise_map).mpr (selectedOf_pairwise trials topN)
  · intro hOVf hOVp
    rw [ctxTable_ok_lookup_not_mem cs fields _ tbl h3 _ hOVf]
    show lookupKey _ (foldColumns _ _ _) = _
    rw [lookupKey_foldColumns, if_neg hOVp, lookupKey_objRow, if_pos rfl]

/-- Witness for C1: two trials with values 1 and 2, `top_N = 5 ≥ 2`; the
printed objective column is the sorted values [2, 1]. -/
theorem display_top_trials_top_rows_witness :
    lookupKey "Objective Value"
      [("Objective Value", [Cell.num 2, Cell.num 1])] =
      some (objColumn (selectedOf
        [⟨some 1, [], some []⟩, ⟨some 2, [], some []⟩] 5)) :=
  (display_top_trials_top_rows
    [⟨some 1, [], some []⟩, ⟨some 2, [], some []⟩] [] 5
    [("Objective Value", [Cell.num 2, Cell.num 1])]
    (by decide) rfl).2.2.2 (by decide) (by decide)

/-- C2: the sort performed by `display_top_trials` is a stable descending
sort: the output is sorted by non-increasing objective value, and for each
value `q` the trials of value `q` appear in exactly their original
chronological order (the filter by value is unchanged); consequently the
tied trials shown in the report (the `top_N` prefix) are an initial
segment of the original chronological order of the tied trials. -/
theorem display_top_trials_stable_sort (trials st : List Trial) (topN : Nat)
    (hok : pySortByValueDesc trials = Except.ok st) :
    st.Sorted sortRel ∧
    (∀ q : Rat, st.filter (fun t => t.value = some q) =
      trials.filter (fun t => t.value = some q)) ∧
    (∀ q : Rat,
      (selectedOf trials topN).filter (fun t => t.value = some q) <+:
        trials.filter (fun t => t.value = some q)) := by
  obtain ⟨_, rfl⟩ := (pySort_ok_iff trials st).mp hok
  have hstab : ∀ q : Rat, (sortDesc trials).filter
      (fun t => decide (t.value = some q)) =
      trials.filter (fun t => decide (t.value = some q)) := by
    intro q
    apply filter_sortDesc
    intro x y hxy hx
    have hx₁ : x.value = some q := of_decide_eq_true hx
    apply decide_eq_false
    intro hy₁
    have hlt : keyOf x < keyOf y := not_le.mp hxy
    simp only [keyOf, hx₁, hy₁, Option.getD_some] at hlt
    exact lt_irrefl q hlt
  refine ⟨sortDesc_sorted trials, hstab, ?_⟩
  intro q
  have h1 : (selectedOf trials topN) <+: sortDesc trials :=
    List.take_prefix topN (sortDesc trials)
  have h2 := h1.filter (fun t => decide (t.value = some q))
  rwa [hstab q] at h2

/-- Witness for C2: two trials tied at value 1; the sorted output keeps
them in chronological order, and the report prefix of the tied trials is a
prefix of their chronological order. -/
theorem display_top_trials_stable_sort_witness :
    List.Sorted sortRel
      [⟨some 1, [("a", Cell.num 1)], none⟩,
       ⟨some 1, [("b", Cell.num 2)], none⟩] ∧
    ((selectedOf [⟨some 1, [("a", Cell.num 1)], none⟩,
        ⟨some 1, [("b", Cell.num 2)], none⟩] 1).filter
      (fun t => t.value = some 1) <+:
      ([⟨some 1, [("a", Cell.num 1)], none⟩,
        ⟨some 1, [("b", Cell.num 2)], none⟩] : List Trial).filter
      (fun t => t.value = some 1)) :=
  ⟨(display_top_trials_stable_sort
      [⟨some 1, [("a", Cell.num 1)], none⟩,
       ⟨some 1, [("b", Cell.num 2)], none⟩]
      [⟨some 1, [("a", Cell.num 1)], none⟩,
       ⟨some 1, [("b", Cell.num 2)], none⟩] 1 rfl).1,
    (display_top_trials_stable_sort
      [⟨some 1, [("a", Cell.num 1)], none⟩,
       ⟨some 1, [("b", Cell.num 2)], none⟩]
      [⟨some 1, [("a", Cell.num 1)], none⟩,
       ⟨some 1, [("b", Cell.num 2)], none⟩] 1 rfl).2.2 1⟩

theorem plot_def (trials : List Trial) :
    plot_trial_results trials =
      scatter (List.range' 1 trials.length) (trials.map (fun t => t.value)) := by
  simp [plot_trial_results]

theorem zip_mem_none :
    ∀ (xs : List Nat) (ys : List (Option Rat)), xs.length = ys.length →
      (none : Option Rat) ∈ ys → ∃ x, (x, (none : Option Rat)) ∈ xs.zip ys := by
  intro xs
  induction xs with
  | nil =>
    intro ys hlen hmem
    cases ys with
    | nil => cases hmem
    | cons y ys => cases hlen
  | cons x xs ih =>
    intro ys hlen hmem
    cases ys with
    | nil => cases hmem
    | cons y ys =>
      rcases List.mem_cons.mp hmem with rfl | hmem
      · exact ⟨x, List.mem_cons_self _ _⟩
      · rcases ih ys (by simpa using hlen) hmem with ⟨x₁, hx₁⟩
        exact ⟨x₁, List.mem_cons_of_mem _ hx₁⟩

theorem map_snd_zip_getD (xs : List Nat) :
    ∀ ys : List (Option Rat),
      (xs.zip ys).map (fun p => (p.1, p.2.getD 0)) =
        xs.zip (ys.map (fun o : Option Rat => o.getD 0)) := by
  induction xs with
  | nil => intro ys; rfl
  | cons x xs ih =>
    intro ys
    cases ys with
    | nil => rfl
    | cons y ys => simp [ih]

/-- C7: `plot_trial_results` extracts the value of every trial
unconditionally and scatters them against the 1-indexed chronological
trial numbers 1..N; when all values are present the plotted points are
exactly (i, value of trial i) for i = 1..N in order, and when any trial
lacks a value the call fails (the plotting backend rejects the missing
value — modelled from the spec, §4.1/§7). -/
theorem plot_trial_results_spec (trials : List Trial) :
    ((∀ t ∈ trials, t.value ≠ none) →
      plot_trial_results trials =
        Except.ok ((List.range' 1 trials.length).zip (trials.map keyOf)) ∧
      ∀ t ∈ trials, t.value = some (keyOf t)) ∧
    ((∃ t ∈ trials, t.value = none) →
      plot_trial_results trials = Except.error Err.typeError) := by
  constructor
  · intro hv
    constructor
    · rw [plot_def]
      unfold scatter
      have hmap := mapM_eq_ok_map
        (fun p : Nat × Option Rat =>
          match p.2 with
          | some v => Except.ok (p.1, v)
          | none => Except.error Err.typeError)
        (fun p => (p.1, p.2.getD 0))
        ((List.range' 1 trials.length).zip (trials.map (fun t => t.value))) ?_
      · rw [hmap]
        have hmk : trials.map keyOf =
            (trials.map (fun t => t.value)).map
              (fun o : Option Rat => o.getD 0) := by
          rw [List.map_map]
          rfl
        rw [hmk, map_snd_zip_getD]
      · rintro ⟨n, o⟩ hp
        have ho : o ∈ trials.map (fun t => t.value) := (List.of_mem_zip hp).2
        rcases List.mem_map.mp ho with ⟨t, ht, rfl⟩
        cases hval : t.value with
        | none => exact absurd hval (hv t ht)
        | some v => simp [hval]
    · intro t ht
      cases hval : t.value with
      | none => exact absurd hval (hv t ht)
      | some v => simp [keyOf, hval]
  · rintro ⟨t, ht, hnone⟩
    cases hres : plot_trial_results trials with
    | ok pts =>
      exfalso
      rw [plot_def] at hres
      unfold scatter at hres
      have hlen : (List.range' 1 trials.length).length =
          (trials.map (fun t => t.value)).length := by simp
      have hnone₁ : (none : Option Rat) ∈ trials.map (fun t => t.value) :=
        List.mem_map.mpr ⟨t, ht, hnone⟩
      rcases zip_mem_none _ _ hlen hnone₁ with ⟨x, hx⟩
      rcases mapM_ok_forall _ _ pts hres (x, none) hx with ⟨b, hb⟩
      cases hb
    | error e =>
      rw [plot_def] at hres
      unfold scatter at hres
      rcases mapM_error_mem _ _ _ hres with ⟨p, _, hp⟩
      obtain ⟨n, o⟩ := p
      cases o with
      | some v => cases hp
      | none =>
        cases hp
        rfl

/-- Witness for C7: a one-trial study with value 1 plots the single point
(1, 1); a one-trial study with a missing value fails with a type error. -/
theorem plot_trial_results_spec_witness :
    plot_trial_results [⟨some 1, [], none⟩] = Except.ok [(1, 1)] ∧
    plot_trial_results [⟨none, [], none⟩] = Except.error Err.typeError := by
  constructor
  · have h := (plot_trial_results_spec [⟨some 1, [], none⟩]).1 (by decide)
    rw [h.1]
    rfl
  · exact (plot_trial_results_spec [⟨none, [], none⟩]).2
      ⟨⟨none, [], none⟩, by decide, rfl⟩

end OptunaLib
